import Mathlib

/-!
Shallow embedding of a small Prolog engine (terms, substitution, unification,
clause standardize-apart, breadth-first resolution) together with theorems
checking its specification.

Identity-sensitive objects of the source (Variable, Constant, Functor,
Predicate are compared by reference identity there) are modelled as
structures carrying a numeric identity plus a display name; reference
equality becomes structural equality on the identity-carrying structure.
Fresh identities (minted by clause standardize-apart) are modelled by
threading an explicit counter.  The source unification and the resolution
loop are genuinely partial (no occurs-check, possibly infinite derivation
trees), so both take an explicit fuel argument: a result of none means the
fuel ran out, some r means the source computation returns r.
-/

namespace Prolog

structure Functor where
  id : Nat
  name : String
deriving DecidableEq

structure Constant where
  id : Nat
  name : String
deriving DecidableEq

structure Variable where
  id : Nat
  name : String
deriving DecidableEq

structure Predicate where
  id : Nat
  name : String
deriving DecidableEq

inductive Term where
  | const : Constant → Term
  | var : Variable → Term
  | app : Functor → List Term → Term

mutual

def Term.beq : Term → Term → Bool
  | .const a, .const b => a == b
  | .var a, .var b => a == b
  | .app f ts, .app g us => f == g && Term.beqList ts us
  | _, _ => false

def Term.beqList : List Term → List Term → Bool
  | [], [] => true
  | t :: ts, u :: us => Term.beq t u && Term.beqList ts us
  | _, _ => false

end

theorem Term.beqList_iff_of (ts us : List Term)
    (h : ∀ t ∈ ts, ∀ u, (Term.beq t u = true) ↔ t = u) :
    (Term.beqList ts us = true) ↔ ts = us := by
  induction ts generalizing us with
  | nil => cases us <;> simp [Term.beqList]
  | cons t ts ih =>
    cases us with
    | nil => simp [Term.beqList]
    | cons u us =>
      simp only [Term.beqList, Bool.and_eq_true]
      rw [h t (by simp) u, ih us (fun t' ht' u' => h t' (by simp [ht']) u')]
      simp

theorem Term.beq_iff : ∀ a b : Term, (Term.beq a b = true) ↔ a = b
  | .const a, b => by
    cases b <;> simp [Term.beq, beq_iff_eq]
  | .var a, b => by
    cases b <;> simp [Term.beq, beq_iff_eq]
  | .app f ts, b => by
    cases b with
    | const c => simp [Term.beq]
    | var v => simp [Term.beq]
    | app g us =>
      simp only [Term.beq, Bool.and_eq_true, beq_iff_eq]
      rw [Term.beqList_iff_of ts us (fun t ht u => Term.beq_iff t u)]
      simp
  termination_by a _ => sizeOf a
  decreasing_by
    simp_wf
    have := List.sizeOf_lt_of_mem ht
    omega

instance : DecidableEq Term := fun a b =>
  decidable_of_iff (Term.beq a b = true) (Term.beq_iff a b)

/-- Insertion into a JS Set, modelled as an insertion-ordered duplicate-free
list: adding an element already present is a no-op, otherwise it is appended. -/
def insertVar (acc : List Variable) (v : Variable) : List Variable :=
  if v ∈ acc then acc else acc ++ [v]

/-- Adding every element of a list to a JS-Set-as-list, in order. -/
def insertAll (acc : List Variable) (vs : List Variable) : List Variable :=
  vs.foldl insertVar acc

mutual

/-- The set of Variables reachable in a term, in depth-first first-occurrence
order, as built by the source listVariables into a JS Set. -/
def listVariables : Term → List Variable
  | .var v => [v]
  | .const _ => []
  | .app _ ts => varsUnionAux [] ts

/-- Folding the variable sets of a list of terms into an accumulating set:
for each term, each of its variables is added in order. -/
def varsUnionAux : List Variable → List Term → List Variable
  | acc, [] => acc
  | acc, t :: ts => varsUnionAux (insertAll acc (listVariables t)) ts

end

structure Fact where
  predicate : Predicate
  terms : List Term
deriving DecidableEq

/-- One atom of a rule: the head or one body element (predicate plus terms). -/
structure Atom where
  predicate : Predicate
  terms : List Term
deriving DecidableEq

structure Rule where
  left : Atom
  right : List Atom
deriving DecidableEq

structure Goal where
  predicate : Predicate
  terms : List Term
deriving DecidableEq

/-- One binding; the source field named variable is called var here because
variable is a Lean keyword. -/
structure Substitution where
  var : Variable
  term : Term
deriving DecidableEq

structure Constraint where
  left : Term
  right : Term
deriving DecidableEq

mutual

/-- Substitution.apply of the source: replace the bound variable by its term,
recursing through applications, leaving constants and other variables alone. -/
def Substitution.apply (s : Substitution) : Term → Term
  | .var v => if v = s.var then s.term else .var v
  | .const c => .const c
  | .app f ts => .app f (Substitution.applyList s ts)

def Substitution.applyList (s : Substitution) : List Term → List Term
  | [] => []
  | t :: ts => s.apply t :: Substitution.applyList s ts

end

/-- Substitution.applyAll of the source: left-fold of apply over the binding
list, in order. -/
def Substitution.applyAll (t : Term) (ss : List Substitution) : Term :=
  ss.foldl (fun t s => s.apply t) t

/-- The per-distinct-variable fresh bindings minted by clone: the i-th
collected variable is mapped to a brand new Variable with identity c+i and
the same display name. -/
def mintSubs : List Variable → Nat → List Substitution
  | [], _ => []
  | v :: vs, c => ⟨v, .var ⟨c, v.name⟩⟩ :: mintSubs vs (c + 1)

/-- The variable set a Fact.clone collects: all variables of all argument
terms, in order, deduplicated. -/
def factVars (f : Fact) : List Variable :=
  varsUnionAux [] f.terms

/-- Fact.clone of the source (standardize apart): collect the variables,
mint one fresh variable per distinct original, and apply the induced
substitution list to every term.  The source mints fresh object identities;
here the explicit counter c supplies them, returning the bumped counter. -/
def Fact.clone (f : Fact) (c : Nat) : Fact × Nat :=
  let vs := factVars f
  let subs := mintSubs vs c
  (⟨f.predicate, f.terms.map (fun t => Substitution.applyAll t subs)⟩, c + vs.length)

/-- The variable set a Rule.clone collects: head variables first, then the
variables of every body atom, in order, deduplicated. -/
def ruleVars (r : Rule) : List Variable :=
  r.right.foldl (fun acc a => varsUnionAux acc a.terms) (varsUnionAux [] r.left.terms)

/-- Rule.clone of the source: same standardize-apart as Fact.clone, applied
to the head terms and to every body atom. -/
def Rule.clone (r : Rule) (c : Nat) : Rule × Nat :=
  let vs := ruleVars r
  let subs := mintSubs vs c
  (⟨⟨r.left.predicate, r.left.terms.map (fun t => Substitution.applyAll t subs)⟩,
    r.right.map (fun a => ⟨a.predicate, a.terms.map (fun t => Substitution.applyAll t subs)⟩)⟩,
   c + vs.length)

/-- The variable renaming described by the specification of standardizing
apart: the i-th distinct collected variable is mapped to the fresh variable
with identity c + i and the same display name; a variable outside the
collected list is left unchanged. -/
def renameVia (vs : List Variable) (c : Nat) (v : Variable) : Variable :=
  match vs with
  | [] => v
  | w :: ws => if w = v then ⟨c, v.name⟩ else renameVia ws (c + 1) v

mutual

/-- Structure-preserving renaming of the variables of a term: predicates,
functors and constants are untouched, every variable is mapped through the
renaming function. -/
def renameTerm (ρ : Variable → Variable) : Term → Term
  | .var v => .var (ρ v)
  | .const cst => .const cst
  | .app f ts => .app f (renameTermList ρ ts)

def renameTermList (ρ : Variable → Variable) : List Term → List Term
  | [] => []
  | t :: ts => renameTerm ρ t :: renameTermList ρ ts

end

/-- Applying one substitution to both sides of every remaining constraint,
as the source does before recursing in the variable case of unify. -/
def applyConstraints (s : Substitution) (cs : List Constraint) : List Constraint :=
  cs.map (fun c => ⟨s.apply c.left, s.apply c.right⟩)

/-- Constraint.unify of the source, with explicit fuel: none means the fuel
ran out, some none means the source returns null (failure), some (some l)
means the source returns the binding list l.  The source recursion has no
occurs-check and genuinely diverges on some inputs, hence the fuel. -/
def Constraint.unify : Nat → List Constraint → Option (Option (List Substitution))
  | _, [] => some (some [])
  | 0, _ :: _ => none
  | Nat.succ fuel, c :: rest =>
    if c.left = c.right then
      Constraint.unify fuel rest
    else
      match c.left, c.right with
      | .var v, r =>
        match Constraint.unify fuel (applyConstraints ⟨v, r⟩ rest) with
        | none => none
        | some none => some none
        | some (some σ) => some (some (⟨v, r⟩ :: σ))
      | l, .var v =>
        match Constraint.unify fuel (applyConstraints ⟨v, l⟩ rest) with
        | none => none
        | some none => some none
        | some (some σ) => some (some (⟨v, l⟩ :: σ))
      | .const a, r => if Term.const a = r then some (some []) else some none
      | l, .const b => if l = Term.const b then some (some []) else some none
      | .app f ts, .app g us =>
        if f ≠ g then some none
        else if ts.length ≠ us.length then some none
        else Constraint.unify fuel (List.zipWith Constraint.mk ts us ++ rest)

/-- The same recursion as Constraint.unify except that the constant case
returns failure unconditionally: the sub-branch of the source constant case
that would return an empty binding list after an identity-equal comparison
is removed.  Proving this variant equal to Constraint.unify shows that the
removed sub-branch is unreachable. -/
def Constraint.unifyConstFails : Nat → List Constraint → Option (Option (List Substitution))
  | _, [] => some (some [])
  | 0, _ :: _ => none
  | Nat.succ fuel, c :: rest =>
    if c.left = c.right then
      Constraint.unifyConstFails fuel rest
    else
      match c.left, c.right with
      | .var v, r =>
        match Constraint.unifyConstFails fuel (applyConstraints ⟨v, r⟩ rest) with
        | none => none
        | some none => some none
        | some (some σ) => some (some (⟨v, r⟩ :: σ))
      | l, .var v =>
        match Constraint.unifyConstFails fuel (applyConstraints ⟨v, l⟩ rest) with
        | none => none
        | some none => some none
        | some (some σ) => some (some (⟨v, l⟩ :: σ))
      | .const _, _ => some none
      | _, .const _ => some none
      | .app f ts, .app g us =>
        if f ≠ g then some none
        else if ts.length ≠ us.length then some none
        else Constraint.unifyConstFails fuel (List.zipWith Constraint.mk ts us ++ rest)

structure Space where
  facts : List Fact
  rules : List Rule
deriving DecidableEq

/-- One breadth-first search state of the source query loop: the pending
goal list together with the binding list accumulated so far. -/
structure Item where
  goals : List Goal
  substitutions : List Substitution
deriving DecidableEq

/-- An emitted answer: the Map from query variables to their bound terms, as
a list of pairs in Map insertion order (the free-variable collection order). -/
abbrev Answer := List (Variable × Term)

/-- The mutable closure state of the iterator returned by Space.query: the
FIFO queue, the query-variable set computed once at query start, and the
fresh-identity counter that models object identities minted by clone. -/
structure QueryState where
  queue : List Item
  freeVariables : List Variable
  counter : Nat
deriving DecidableEq

/-- The free-variable set of the original top-level goal list, collected in
the source order: per goal, per argument term, each variable added to a Set. -/
def collectGoalVars (goals : List Goal) : List Variable :=
  goals.foldl (fun acc g => varsUnionAux acc g.terms) []

/-- Space.query of the source: the iterator starts with a single-item queue
(the callers goal list with empty bindings) and the query-variable set.  The
store itself is a separate closure capture, passed to nextF instead. -/
def Space.query (goals : List Goal) (c : Nat) : QueryState :=
  ⟨[⟨goals, []⟩], collectGoalVars goals, c⟩

/-- One iteration of the fact loop of the source: clone the fact (always,
bumping the counter), skip it unless predicate and arity match, otherwise
unify the instantiated goal arguments against the cloned fact arguments and
on success produce the successor item with the deferred goals. The outer
none means the unify fuel ran out. -/
def tryFact (ufuel : Nat) (g : Goal) (gs : List Goal) (subs : List Substitution)
    (c : Nat) (f : Fact) : Option (Option Item) × Nat :=
  let fc := f.clone c
  let fact := fc.1
  if g.predicate ≠ fact.predicate then (some none, fc.2)
  else if g.terms.length ≠ fact.terms.length then (some none, fc.2)
  else
    let constraints :=
      List.zipWith (fun gt ft => Constraint.mk (Substitution.applyAll gt subs) ft)
        g.terms fact.terms
    match Constraint.unify ufuel constraints with
    | none => (none, fc.2)
    | some none => (some none, fc.2)
    | some (some σ) => (some (some ⟨gs, subs ++ σ⟩), fc.2)

/-- One iteration of the rule loop of the source: like tryFact, but matching
the cloned rule head, and on success the successor goal list is the deferred
goals followed by the cloned body atoms turned into goals. -/
def tryRule (ufuel : Nat) (g : Goal) (gs : List Goal) (subs : List Substitution)
    (c : Nat) (r : Rule) : Option (Option Item) × Nat :=
  let rc := r.clone c
  let rule := rc.1
  if g.predicate ≠ rule.left.predicate then (some none, rc.2)
  else if g.terms.length ≠ rule.left.terms.length then (some none, rc.2)
  else
    let constraints :=
      List.zipWith (fun gt ft => Constraint.mk (Substitution.applyAll gt subs) ft)
        g.terms rule.left.terms
    match Constraint.unify ufuel constraints with
    | none => (none, rc.2)
    | some none => (some none, rc.2)
    | some (some σ) =>
      (some (some ⟨gs ++ rule.right.map (fun a => Goal.mk a.predicate a.terms), subs ++ σ⟩), rc.2)

/-- The fact loop of the source query expansion: scan the store linearly,
appending each successful successor item at the back of the queue. -/
def pushFacts (ufuel : Nat) (g : Goal) (gs : List Goal) (subs : List Substitution) :
    List Fact → List Item → Nat → Option (List Item × Nat)
  | [], q, c => some (q, c)
  | f :: fs, q, c =>
    match tryFact ufuel g gs subs c f with
    | (none, _) => none
    | (some none, c') => pushFacts ufuel g gs subs fs q c'
    | (some (some it), c') => pushFacts ufuel g gs subs fs (q ++ [it]) c'

/-- The rule loop of the source query expansion, run after the fact loop. -/
def pushRules (ufuel : Nat) (g : Goal) (gs : List Goal) (subs : List Substitution) :
    List Rule → List Item → Nat → Option (List Item × Nat)
  | [], q, c => some (q, c)
  | r :: rs, q, c =>
    match tryRule ufuel g gs subs c r with
    | (none, _) => none
    | (some none, c') => pushRules ufuel g gs subs rs q c'
    | (some (some it), c') => pushRules ufuel g gs subs rs (q ++ [it]) c'

/-- One pull (next()) on the query iterator of the source, with fuel bounding
the number of dequeues: some (some a, st) is an emitted answer, some (none, st)
is the exhaustion signal (done), none means the fuel ran out.  A dequeued item
with an empty goal list is a candidate: its query-variable mapping is emitted
only when every bound term is fully ground, otherwise the item is discarded
and the loop continues; an item with goals left is expanded through the fact
loop and then the rule loop. -/
def nextF (sp : Space) (ufuel : Nat) : Nat → QueryState → Option (Option Answer × QueryState)
  | fuel, st =>
    match st.queue with
    | [] => some (none, st)
    | item :: rest =>
      match fuel with
      | 0 => none
      | Nat.succ fuel' =>
        match item.goals with
        | [] =>
          let mapping := st.freeVariables.map
            (fun v => (v, Substitution.applyAll (Term.var v) item.substitutions))
          if mapping.all (fun p => (listVariables p.2).isEmpty) then
            some (some mapping, ⟨rest, st.freeVariables, st.counter⟩)
          else
            nextF sp ufuel fuel' ⟨rest, st.freeVariables, st.counter⟩
        | g :: gs =>
          match pushFacts ufuel g gs item.substitutions sp.facts rest st.counter with
          | none => none
          | some (q1, c1) =>
            match pushRules ufuel g gs item.substitutions sp.rules q1 c1 with
            | none => none
            | some (q2, c2) => nextF sp ufuel fuel' ⟨q2, st.freeVariables, c2⟩

/-- Issuing n successive pulls on the iterator, collecting each result
(some answer or the exhaustion signal); none if any pull ran out of fuel. -/
def pulls (sp : Space) (ufuel fuel : Nat) : Nat → QueryState → Option (List (Option Answer))
  | 0, _ => some []
  | Nat.succ n, st =>
    match nextF sp ufuel fuel st with
    | none => none
    | some (a, st') =>
      match pulls sp ufuel fuel n st' with
      | none => none
      | some as => some (a :: as)

/-! Concrete store for the addition example of the specification:
the single fact add(z, Y, Y) and the single rule
add(s(X), Y, s(Z)) :- add(X, Y, Z), with interned constant z, functor s and
predicate add, and explicit identities for every variable. -/

def zC : Constant := ⟨0, "z"⟩

def sF : Functor := ⟨0, "s"⟩

def addP : Predicate := ⟨0, "add"⟩

def addFact : Fact :=
  ⟨addP, [Term.const zC, Term.var ⟨0, "Y"⟩, Term.var ⟨0, "Y"⟩]⟩

def addRule : Rule :=
  ⟨⟨addP, [Term.app sF [Term.var ⟨1, "X"⟩], Term.var ⟨2, "Y"⟩, Term.app sF [Term.var ⟨3, "Z"⟩]]⟩,
   [⟨addP, [Term.var ⟨1, "X"⟩, Term.var ⟨2, "Y"⟩, Term.var ⟨3, "Z"⟩]⟩]⟩

def addSpace : Space := ⟨[addFact], [addRule]⟩

/-- The query variable X of the query add(X, Y, s(s(z))). -/
def vXQ : Variable := ⟨4, "X"⟩

/-- The query variable Y of the query add(X, Y, s(s(z))). -/
def vYQ : Variable := ⟨5, "Y"⟩

/-- The query variable V of the query add(s(z), s(s(z)), V). -/
def vVQ : Variable := ⟨6, "V"⟩

/-- The ground numeral s(z). -/
def sz : Term := Term.app sF [Term.const zC]

/-- The ground numeral s(s(z)). -/
def ssz : Term := Term.app sF [sz]

/-- The ground numeral s(s(s(z))). -/
def sssz : Term := Term.app sF [ssz]

/-- The goal list of the query add(X, Y, s(s(z))). -/
def goalsC1 : List Goal := [⟨addP, [Term.var vXQ, Term.var vYQ, ssz]⟩]

/-- The goal list of the query add(s(z), s(s(z)), V). -/
def goalsC2 : List Goal := [⟨addP, [sz, ssz, Term.var vVQ]⟩]

/-! Basic lemmas about the variable-set operations. -/

theorem mem_insertVar {x v : Variable} {acc : List Variable} :
    x ∈ insertVar acc v ↔ x ∈ acc ∨ x = v := by
  unfold insertVar
  split
  · next h =>
    constructor
    · exact fun hx => Or.inl hx
    · rintro (hx | rfl)
      · exact hx
      · exact h
  · simp

theorem mem_insertAll {x : Variable} {acc vs : List Variable} :
    x ∈ insertAll acc vs ↔ x ∈ acc ∨ x ∈ vs := by
  induction vs generalizing acc with
  | nil => simp [insertAll]
  | cons v vs ih =>
    show x ∈ insertAll (insertVar acc v) vs ↔ _
    rw [ih, mem_insertVar]
    simp only [List.mem_cons]
    tauto

theorem mem_varsUnionAux {x : Variable} {acc : List Variable} {ts : List Term} :
    x ∈ varsUnionAux acc ts ↔ x ∈ acc ∨ ∃ t ∈ ts, x ∈ listVariables t := by
  induction ts generalizing acc with
  | nil => simp [varsUnionAux]
  | cons t ts ih =>
    show x ∈ varsUnionAux (insertAll acc (listVariables t)) ts ↔ _
    rw [ih, mem_insertAll]
    simp only [List.mem_cons]
    constructor
    · rintro ((h | h) | ⟨u, hu, hx⟩)
      · exact Or.inl h
      · exact Or.inr ⟨t, Or.inl rfl, h⟩
      · exact Or.inr ⟨u, Or.inr hu, hx⟩
    · rintro (h | ⟨u, (rfl | hu), hx⟩)
      · exact Or.inl (Or.inl h)
      · exact Or.inl (Or.inr hx)
      · exact Or.inr ⟨u, hu, hx⟩

theorem mem_listVariables_app {x : Variable} {f : Functor} {ts : List Term} :
    x ∈ listVariables (Term.app f ts) ↔ ∃ t ∈ ts, x ∈ listVariables t := by
  show x ∈ varsUnionAux [] ts ↔ _
  rw [mem_varsUnionAux]
  simp

theorem nodup_insertVar {acc : List Variable} {v : Variable} (h : acc.Nodup) :
    (insertVar acc v).Nodup := by
  unfold insertVar
  split
  · exact h
  · next hv =>
    rw [List.nodup_append]
    refine ⟨h, List.nodup_singleton v, ?_⟩
    intro a ha hb
    rw [List.mem_singleton] at hb
    exact hv (hb ▸ ha)

theorem nodup_insertAll {acc vs : List Variable} (h : acc.Nodup) :
    (insertAll acc vs).Nodup := by
  induction vs generalizing acc with
  | nil => exact h
  | cons v vs ih => exact ih (nodup_insertVar h)

theorem nodup_varsUnionAux {acc : List Variable} {ts : List Term} (h : acc.Nodup) :
    (varsUnionAux acc ts).Nodup := by
  induction ts generalizing acc with
  | nil => exact h
  | cons t ts ih => exact ih (nodup_insertAll h)

/-! Basic lemmas about substitution application. -/

theorem applyList_eq_map (s : Substitution) (ts : List Term) :
    Substitution.applyList s ts = ts.map s.apply := by
  induction ts with
  | nil => rfl
  | cons t ts ih => simp [Substitution.applyList, ih]

theorem applyAll_nil (t : Term) : Substitution.applyAll t [] = t := rfl

theorem applyAll_cons (t : Term) (s : Substitution) (ss : List Substitution) :
    Substitution.applyAll t (s :: ss) = Substitution.applyAll (s.apply t) ss := rfl

theorem apply_app (s : Substitution) (f : Functor) (ts : List Term) :
    s.apply (Term.app f ts) = Term.app f (ts.map s.apply) := by
  rw [Substitution.apply, applyList_eq_map]

theorem applyAll_app (f : Functor) (ts : List Term) (ss : List Substitution) :
    Substitution.applyAll (Term.app f ts) ss =
      Term.app f (ts.map (fun t => Substitution.applyAll t ss)) := by
  induction ss generalizing ts with
  | nil => simp [applyAll_nil]
  | cons s ss ih =>
    rw [applyAll_cons, apply_app, ih]
    simp [applyAll_cons]

/-- A substitution whose variable does not occur in a term leaves that term
unchanged. -/
theorem apply_of_not_occurs (s : Substitution) :
    ∀ t : Term, s.var ∉ listVariables t → s.apply t = t
  | .var v, h => by
    have : v ≠ s.var := by
      intro rfl'
      exact h (by simp [listVariables, rfl'])
    simp [Substitution.apply, this]
  | .const c, _ => rfl
  | .app f ts, h => by
    rw [apply_app]
    congr 1
    have : ∀ t ∈ ts, s.apply t = t := by
      intro t ht
      have hno : s.var ∉ listVariables t := fun hx => h (mem_listVariables_app.2 ⟨t, ht, hx⟩)
      have _ : sizeOf t < sizeOf (Term.app f ts) := by
        have := List.sizeOf_lt_of_mem ht
        simp only [Term.app.sizeOf_spec]
        omega
      exact apply_of_not_occurs s t hno
    calc ts.map s.apply = ts.map id := List.map_congr_left this
    _ = ts := List.map_id ts
  termination_by t => sizeOf t
  decreasing_by
    simp_wf
    have := List.sizeOf_lt_of_mem ht
    omega

/-- Applying a whole binding list to a term without variables is a no-op. -/
theorem applyAll_ground {t : Term} (h : listVariables t = [])
    (ss : List Substitution) : Substitution.applyAll t ss = t := by
  induction ss with
  | nil => rfl
  | cons s ss ih =>
    rw [applyAll_cons, apply_of_not_occurs s t (by rw [h]; exact List.not_mem_nil _)]
    exact ih

/-- C4: for every substitution list and every fully ground term t (empty
listVariables), applyAll returns t unchanged; in particular applying the same
binding list twice returns an identical term both times. -/
theorem C4_applyAll_ground_noop (t : Term) (ss : List Substitution)
    (h : listVariables t = []) :
    Substitution.applyAll t ss = t ∧
      Substitution.applyAll (Substitution.applyAll t ss) ss =
        Substitution.applyAll t ss := by
  have h1 := applyAll_ground h ss
  exact ⟨h1, by rw [h1]; exact h1⟩

/-- Witness for C4 at the ground term s(z) and a nonempty binding list. -/
theorem C4_applyAll_ground_noop_witness :
    listVariables sz = [] ∧
      (Substitution.applyAll sz [⟨⟨7, "W"⟩, Term.const zC⟩] = sz ∧
        Substitution.applyAll (Substitution.applyAll sz [⟨⟨7, "W"⟩, Term.const zC⟩])
            [⟨⟨7, "W"⟩, Term.const zC⟩] =
          Substitution.applyAll sz [⟨⟨7, "W"⟩, Term.const zC⟩]) :=
  ⟨by decide, C4_applyAll_ground_noop sz [⟨⟨7, "W"⟩, Term.const zC⟩] (by decide)⟩

/-! Lemmas about the argument-pairing step of unification. -/

theorem mem_zipWith_constraint {c : Constraint} {ts us : List Term}
    (h : c ∈ List.zipWith Constraint.mk ts us) : c.left ∈ ts ∧ c.right ∈ us := by
  induction ts generalizing us with
  | nil => simp at h
  | cons t ts ih =>
    cases us with
    | nil => simp at h
    | cons u us =>
      simp only [List.zipWith_cons_cons, List.mem_cons] at h
      rcases h with rfl | h
      · exact ⟨by simp, by simp⟩
      · obtain ⟨h1, h2⟩ := ih h
        exact ⟨List.mem_cons_of_mem _ h1, List.mem_cons_of_mem _ h2⟩

theorem map_eq_of_zip_eq {σ : List Substitution} :
    ∀ {ts us : List Term}, ts.length = us.length →
      (∀ c ∈ List.zipWith Constraint.mk ts us,
        Substitution.applyAll c.left σ = Substitution.applyAll c.right σ) →
      ts.map (fun t => Substitution.applyAll t σ) =
        us.map (fun t => Substitution.applyAll t σ) := by
  intro ts
  induction ts with
  | nil =>
    intro us hlen _
    cases us with
    | nil => rfl
    | cons u us => simp at hlen
  | cons t ts ih =>
    intro us hlen hall
    cases us with
    | nil => simp at hlen
    | cons u us =>
      simp only [List.zipWith_cons_cons, List.mem_cons] at hall
      simp only [List.map_cons]
      rw [hall ⟨t, u⟩ (Or.inl rfl)]
      rw [ih (by simpa using hlen) (fun c hc => hall c (Or.inr hc))]

/-- Soundness of unification under the no-self-occurrence condition: when
unify succeeds and no returned binding maps a variable to a term containing
that same variable, the binding list makes the two sides of every input
constraint syntactically identical. -/
theorem unify_sound :
    ∀ (fuel : Nat) (cs : List Constraint) (σ : List Substitution),
      Constraint.unify fuel cs = some (some σ) →
      (∀ s ∈ σ, s.var ∉ listVariables s.term) →
      ∀ c ∈ cs, Substitution.applyAll c.left σ = Substitution.applyAll c.right σ := by
  intro fuel
  induction fuel with
  | zero =>
    intro cs σ h hocc c hc
    cases cs with
    | nil => simp at hc
    | cons c0 rest => simp [Constraint.unify] at h
  | succ fuel ih =>
    intro cs σ h hocc c hc
    cases cs with
    | nil => simp at hc
    | cons c0 rest =>
      obtain ⟨l, r⟩ := c0
      by_cases heq : l = r
      · rw [show Constraint.unify (fuel + 1) (⟨l, r⟩ :: rest) = Constraint.unify fuel rest by
          simp [Constraint.unify, heq]] at h
        rcases List.mem_cons.1 hc with rfl | hc
        · simp only [heq]
        · exact ih rest σ h hocc c hc
      · cases l with
        | var v =>
          simp only [Constraint.unify, if_neg (by intro hx; exact heq hx)] at h
          rcases hrec : Constraint.unify fuel (applyConstraints ⟨v, r⟩ rest) with _ | _ | σ' <;> rw [hrec] at h
          · simp at h
          · simp at h
          simp only [Option.some.injEq] at h
          subst h
          have hvnot : v ∉ listVariables r := by
            have := hocc ⟨v, r⟩ (by simp)
            simpa using this
          have hocc' : ∀ s ∈ σ', s.var ∉ listVariables s.term := by
            intro s hs
            exact hocc s (List.mem_cons_of_mem _ hs)
          have ihr := ih _ σ' hrec hocc'
          rcases List.mem_cons.1 hc with rfl | hc
          · show Substitution.applyAll (Term.var v) _ = Substitution.applyAll r _
            rw [applyAll_cons, applyAll_cons]
            rw [show Substitution.apply ⟨v, r⟩ (Term.var v) = r by simp [Substitution.apply]]
            rw [apply_of_not_occurs ⟨v, r⟩ r hvnot]
          · rw [applyAll_cons, applyAll_cons]
            exact ihr ⟨Substitution.apply ⟨v, r⟩ c.left, Substitution.apply ⟨v, r⟩ c.right⟩
              (by simp only [applyConstraints, List.mem_map]; exact ⟨c, hc, rfl⟩)
        | const a =>
          cases r with
          | var v =>
            simp only [Constraint.unify, if_neg (by intro hx; exact heq hx)] at h
            rcases hrec : Constraint.unify fuel (applyConstraints ⟨v, Term.const a⟩ rest)
              with _ | _ | σ' <;> rw [hrec] at h
            · simp at h
            · simp at h
            simp only [Option.some.injEq] at h
            subst h
            have hvnot : v ∉ listVariables (Term.const a) := by simp [listVariables]
            have hocc' : ∀ s ∈ σ', s.var ∉ listVariables s.term := by
              intro s hs
              exact hocc s (List.mem_cons_of_mem _ hs)
            have ihr := ih _ σ' hrec hocc'
            rcases List.mem_cons.1 hc with rfl | hc
            · show Substitution.applyAll (Term.const a) _ = Substitution.applyAll (Term.var v) _
              rw [applyAll_cons, applyAll_cons]
              rw [show Substitution.apply ⟨v, Term.const a⟩ (Term.var v) = Term.const a by
                simp [Substitution.apply]]
              rw [apply_of_not_occurs ⟨v, Term.const a⟩ (Term.const a) hvnot]
            · rw [applyAll_cons, applyAll_cons]
              exact ihr ⟨Substitution.apply ⟨v, Term.const a⟩ c.left,
                  Substitution.apply ⟨v, Term.const a⟩ c.right⟩
                (by simp only [applyConstraints, List.mem_map]; exact ⟨c, hc, rfl⟩)
          | const b =>
            simp only [Constraint.unify, if_neg (by intro hx; exact heq hx)] at h
            exact absurd h (by simp)
          | app g us =>
            simp only [Constraint.unify, if_neg (by intro hx; exact heq hx)] at h
            exact absurd h (by simp)
        | app f ts =>
          cases r with
          | var v =>
            simp only [Constraint.unify, if_neg (by intro hx; exact heq hx)] at h
            rcases hrec : Constraint.unify fuel (applyConstraints ⟨v, Term.app f ts⟩ rest)
              with _ | _ | σ' <;> rw [hrec] at h
            · simp at h
            · simp at h
            simp only [Option.some.injEq] at h
            subst h
            have hvnot : v ∉ listVariables (Term.app f ts) := by
              have := hocc ⟨v, Term.app f ts⟩ (by simp)
              simpa using this
            have hocc' : ∀ s ∈ σ', s.var ∉ listVariables s.term := by
              intro s hs
              exact hocc s (List.mem_cons_of_mem _ hs)
            have ihr := ih _ σ' hrec hocc'
            rcases List.mem_cons.1 hc with rfl | hc
            · show Substitution.applyAll (Term.app f ts) _ = Substitution.applyAll (Term.var v) _
              rw [applyAll_cons, applyAll_cons]
              rw [show Substitution.apply ⟨v, Term.app f ts⟩ (Term.var v) = Term.app f ts by
                simp [Substitution.apply]]
              rw [apply_of_not_occurs ⟨v, Term.app f ts⟩ (Term.app f ts) hvnot]
            · rw [applyAll_cons, applyAll_cons]
              exact ihr ⟨Substitution.apply ⟨v, Term.app f ts⟩ c.left,
                  Substitution.apply ⟨v, Term.app f ts⟩ c.right⟩
                (by simp only [applyConstraints, List.mem_map]; exact ⟨c, hc, rfl⟩)
          | const b =>
            simp only [Constraint.unify, if_neg (by intro hx; exact heq hx)] at h
            exact absurd h (by simp)
          | app g us =>
            simp only [Constraint.unify, if_neg (by intro hx; exact heq hx)] at h
            by_cases hfg : f ≠ g
            · rw [if_pos hfg] at h
              exact absurd h (by simp)
            · rw [if_neg hfg] at h
              push_neg at hfg
              subst hfg
              by_cases hlen : ts.length ≠ us.length
              · rw [if_pos hlen] at h
                exact absurd h (by simp)
              · rw [if_neg hlen] at h
                push_neg at hlen
                have ihr := ih _ σ h hocc
                rcases List.mem_cons.1 hc with rfl | hc
                · show Substitution.applyAll (Term.app f ts) _ =
                    Substitution.applyAll (Term.app f us) _
                  rw [applyAll_app, applyAll_app]
                  congr 1
                  exact map_eq_of_zip_eq hlen
                    (fun c' hc' => ihr c' (List.mem_append_left _ hc'))
                · exact ihr c (List.mem_append_right _ hc)

/-- Every variable of an applied term comes from the term itself or from the
replacement term of the substitution. -/
theorem mem_vars_apply (s : Substitution) :
    ∀ (t : Term) (x : Variable), x ∈ listVariables (s.apply t) →
      x ∈ listVariables t ∨ x ∈ listVariables s.term
  | .var v, x, h => by
    by_cases hv : v = s.var
    · rw [show s.apply (Term.var v) = s.term by simp [Substitution.apply, hv]] at h
      exact Or.inr h
    · rw [show s.apply (Term.var v) = Term.var v by simp [Substitution.apply, hv]] at h
      exact Or.inl h
  | .const cst, x, h => by
    rw [show s.apply (Term.const cst) = Term.const cst from rfl] at h
    exact absurd h (by simp [listVariables])
  | .app f ts, x, h => by
    rw [apply_app] at h
    obtain ⟨t', ht', hx⟩ := mem_listVariables_app.1 h
    obtain ⟨t0, ht0, rfl⟩ := List.mem_map.1 ht'
    have _ : sizeOf t0 < sizeOf (Term.app f ts) := by
      have := List.sizeOf_lt_of_mem ht0
      simp only [Term.app.sizeOf_spec]
      omega
    rcases mem_vars_apply s t0 x hx with h1 | h1
    · exact Or.inl (mem_listVariables_app.2 ⟨t0, ht0, h1⟩)
    · exact Or.inr h1
  termination_by t _ _ => sizeOf t

/-- Every variable mentioned by a successful unification result (as bound
variable or inside a bound term) already occurs in the input constraints. -/
theorem unify_no_new_vars :
    ∀ (fuel : Nat) (cs : List Constraint) (σ : List Substitution),
      Constraint.unify fuel cs = some (some σ) →
      ∀ x : Variable, (∃ s ∈ σ, x = s.var ∨ x ∈ listVariables s.term) →
        ∃ c ∈ cs, x ∈ listVariables c.left ∨ x ∈ listVariables c.right := by
  intro fuel
  induction fuel with
  | zero =>
    intro cs σ h x hx
    cases cs with
    | nil =>
      simp [Constraint.unify] at h
      subst h
      simp at hx
    | cons c0 rest => simp [Constraint.unify] at h
  | succ fuel ih =>
    intro cs σ h x hx
    cases cs with
    | nil =>
      simp [Constraint.unify] at h
      subst h
      simp at hx
    | cons c0 rest =>
      obtain ⟨l, r⟩ := c0
      by_cases heq : l = r
      · rw [show Constraint.unify (fuel + 1) (⟨l, r⟩ :: rest) = Constraint.unify fuel rest by
          simp [Constraint.unify, heq]] at h
        obtain ⟨c, hc, hmem⟩ := ih rest σ h x hx
        exact ⟨c, List.mem_cons_of_mem _ hc, hmem⟩
      · cases l with
        | var v =>
          simp only [Constraint.unify, if_neg (by intro hx'; exact heq hx')] at h
          rcases hrec : Constraint.unify fuel (applyConstraints ⟨v, r⟩ rest)
            with _ | _ | σ' <;> rw [hrec] at h
          · simp at h
          · simp at h
          simp only [Option.some.injEq] at h
          subst h
          obtain ⟨s, hs, hmem⟩ := hx
          rcases List.mem_cons.1 hs with rfl | hs
          · rcases hmem with rfl | hmem
            · exact ⟨⟨Term.var x, r⟩, by simp, Or.inl (by simp [listVariables])⟩
            · exact ⟨⟨Term.var v, r⟩, by simp, Or.inr hmem⟩
          · obtain ⟨c', hc', hmem'⟩ := ih _ σ' hrec x ⟨s, hs, hmem⟩
            obtain ⟨c0, hc0, rfl⟩ := List.mem_map.1 hc'
            rcases hmem' with h1 | h1
            · rcases mem_vars_apply _ _ _ h1 with h2 | h2
              · exact ⟨c0, List.mem_cons_of_mem _ hc0, Or.inl h2⟩
              · exact ⟨⟨Term.var v, r⟩, by simp, Or.inr h2⟩
            · rcases mem_vars_apply _ _ _ h1 with h2 | h2
              · exact ⟨c0, List.mem_cons_of_mem _ hc0, Or.inr h2⟩
              · exact ⟨⟨Term.var v, r⟩, by simp, Or.inr h2⟩
        | const a =>
          cases r with
          | var v =>
            simp only [Constraint.unify, if_neg (by intro hx'; exact heq hx')] at h
            rcases hrec : Constraint.unify fuel (applyConstraints ⟨v, Term.const a⟩ rest)
              with _ | _ | σ' <;> rw [hrec] at h
            · simp at h
            · simp at h
            simp only [Option.some.injEq] at h
            subst h
            obtain ⟨s, hs, hmem⟩ := hx
            rcases List.mem_cons.1 hs with rfl | hs
            · rcases hmem with rfl | hmem
              · exact ⟨⟨Term.const a, Term.var x⟩, by simp, Or.inr (by simp [listVariables])⟩
              · exact absurd hmem (by simp [listVariables])
            · obtain ⟨c', hc', hmem'⟩ := ih _ σ' hrec x ⟨s, hs, hmem⟩
              obtain ⟨c0, hc0, rfl⟩ := List.mem_map.1 hc'
              rcases hmem' with h1 | h1
              · rcases mem_vars_apply _ _ _ h1 with h2 | h2
                · exact ⟨c0, List.mem_cons_of_mem _ hc0, Or.inl h2⟩
                · exact absurd h2 (by simp [listVariables])
              · rcases mem_vars_apply _ _ _ h1 with h2 | h2
                · exact ⟨c0, List.mem_cons_of_mem _ hc0, Or.inr h2⟩
                · exact absurd h2 (by simp [listVariables])
          | const b =>
            simp only [Constraint.unify, if_neg (by intro hx'; exact heq hx')] at h
            exact absurd h (by simp)
          | app g us =>
            simp only [Constraint.unify, if_neg (by intro hx'; exact heq hx')] at h
            exact absurd h (by simp)
        | app f ts =>
          cases r with
          | var v =>
            simp only [Constraint.unify, if_neg (by intro hx'; exact heq hx')] at h
            rcases hrec : Constraint.unify fuel (applyConstraints ⟨v, Term.app f ts⟩ rest)
              with _ | _ | σ' <;> rw [hrec] at h
            · simp at h
            · simp at h
            simp only [Option.some.injEq] at h
            subst h
            obtain ⟨s, hs, hmem⟩ := hx
            rcases List.mem_cons.1 hs with rfl | hs
            · rcases hmem with rfl | hmem
              · exact ⟨⟨Term.app f ts, Term.var x⟩, by simp, Or.inr (by simp [listVariables])⟩
              · exact ⟨⟨Term.app f ts, Term.var v⟩, by simp, Or.inl hmem⟩
            · obtain ⟨c', hc', hmem'⟩ := ih _ σ' hrec x ⟨s, hs, hmem⟩
              obtain ⟨c0, hc0, rfl⟩ := List.mem_map.1 hc'
              rcases hmem' with h1 | h1
              · rcases mem_vars_apply _ _ _ h1 with h2 | h2
                · exact ⟨c0, List.mem_cons_of_mem _ hc0, Or.inl h2⟩
                · exact ⟨⟨Term.app f ts, Term.var v⟩, by simp, Or.inl h2⟩
              · rcases mem_vars_apply _ _ _ h1 with h2 | h2
                · exact ⟨c0, List.mem_cons_of_mem _ hc0, Or.inr h2⟩
                · exact ⟨⟨Term.app f ts, Term.var v⟩, by simp, Or.inl h2⟩
          | const b =>
            simp only [Constraint.unify, if_neg (by intro hx'; exact heq hx')] at h
            exact absurd h (by simp)
          | app g us =>
            simp only [Constraint.unify, if_neg (by intro hx'; exact heq hx')] at h
            by_cases hfg : f ≠ g
            · rw [if_pos hfg] at h
              exact absurd h (by simp)
            · rw [if_neg hfg] at h
              push_neg at hfg
              subst hfg
              by_cases hlen : ts.length ≠ us.length
              · rw [if_pos hlen] at h
                exact absurd h (by simp)
              · rw [if_neg hlen] at h
                obtain ⟨c', hc', hmem'⟩ := ih _ σ h x hx
                rcases List.mem_append.1 hc' with hzip | hrest
                · obtain ⟨hl, hr⟩ := mem_zipWith_constraint hzip
                  rcases hmem' with h1 | h1
                  · exact ⟨⟨Term.app f ts, Term.app f us⟩, by simp,
                      Or.inl (mem_listVariables_app.2 ⟨c'.left, hl, h1⟩)⟩
                  · exact ⟨⟨Term.app f ts, Term.app f us⟩, by simp,
                      Or.inr (mem_listVariables_app.2 ⟨c'.right, hr, h1⟩)⟩
                · exact ⟨c', List.mem_cons_of_mem _ hrest, hmem'⟩

/-- C9: unification and substitution never mint new Variable identities:
every variable of the binding list returned by a successful unify already
occurs in the input constraints, and every variable of apply(term) already
occurs in the input term or in the replacement term of the substitution. -/
theorem C9_no_minting_in_unify_and_apply :
    (∀ (s : Substitution) (t : Term) (x : Variable),
        x ∈ listVariables (s.apply t) → x ∈ listVariables t ∨ x ∈ listVariables s.term)
    ∧ (∀ (fuel : Nat) (cs : List Constraint) (σ : List Substitution),
        Constraint.unify fuel cs = some (some σ) →
        ∀ x : Variable, (∃ s ∈ σ, x = s.var ∨ x ∈ listVariables s.term) →
          ∃ c ∈ cs, x ∈ listVariables c.left ∨ x ∈ listVariables c.right) :=
  ⟨mem_vars_apply, unify_no_new_vars⟩

/-- Witness for C9: the apply part at the binding X to z applied to the term
Y, and the unify part at the single constraint X = z. -/
theorem C9_no_minting_in_unify_and_apply_witness :
    (Variable.mk 8 "Y" ∈ listVariables (Term.var ⟨8, "Y"⟩) ∨
        Variable.mk 8 "Y" ∈ listVariables (Term.const zC)) ∧
      ∃ c ∈ [Constraint.mk (Term.var ⟨9, "X"⟩) (Term.const zC)],
        Variable.mk 9 "X" ∈ listVariables c.left ∨
          Variable.mk 9 "X" ∈ listVariables c.right :=
  ⟨C9_no_minting_in_unify_and_apply.1 ⟨⟨9, "X"⟩, Term.const zC⟩ (Term.var ⟨8, "Y"⟩)
      ⟨8, "Y"⟩ (by decide),
   C9_no_minting_in_unify_and_apply.2 5 [⟨Term.var ⟨9, "X"⟩, Term.const zC⟩]
      [⟨⟨9, "X"⟩, Term.const zC⟩] (by decide) ⟨9, "X"⟩ (by decide)⟩

/-- Counterexample to C3 as stated: because the source performs no
occurs-check, unify succeeds on the single constraint X = f(X) with the
binding X to f(X), yet applying that binding list to the two sides gives
f(X) on the left and f(f(X)) on the right, which are not identical. -/
theorem C3_unify_identify_counterexample :
    Constraint.unify 5 [⟨Term.var ⟨9, "X"⟩, Term.app sF [Term.var ⟨9, "X"⟩]⟩] =
        some (some [⟨⟨9, "X"⟩, Term.app sF [Term.var ⟨9, "X"⟩]⟩]) ∧
      Substitution.applyAll (Term.var ⟨9, "X"⟩)
          [⟨⟨9, "X"⟩, Term.app sF [Term.var ⟨9, "X"⟩]⟩] ≠
        Substitution.applyAll (Term.app sF [Term.var ⟨9, "X"⟩])
          [⟨⟨9, "X"⟩, Term.app sF [Term.var ⟨9, "X"⟩]⟩] := by
  decide

/-- C3 (amended): for every list of constraints on which unify succeeds with
a binding list in which no binding maps a variable to a term containing that
same variable, applying the returned binding list (via applyAll, in order) to
the left side and to the right side of each input constraint produces
syntactically identical terms. -/
theorem C3_unify_makes_sides_identical (fuel : Nat) (cs : List Constraint)
    (σ : List Substitution) (h : Constraint.unify fuel cs = some (some σ))
    (hocc : ∀ s ∈ σ, s.var ∉ listVariables s.term) :
    ∀ c ∈ cs, Substitution.applyAll c.left σ = Substitution.applyAll c.right σ :=
  unify_sound fuel cs σ h hocc

/-- Witness for C3 on the constraint f(X, Y) = f(z, s(z)). -/
theorem C3_unify_makes_sides_identical_witness :
    Constraint.unify 9 [⟨Term.app sF [Term.var ⟨9, "X"⟩, Term.var ⟨8, "Y"⟩],
          Term.app sF [Term.const zC, sz]⟩] =
        some (some [⟨⟨9, "X"⟩, Term.const zC⟩, ⟨⟨8, "Y"⟩, sz⟩]) ∧
      ∀ c ∈ [Constraint.mk (Term.app sF [Term.var ⟨9, "X"⟩, Term.var ⟨8, "Y"⟩])
          (Term.app sF [Term.const zC, sz])],
        Substitution.applyAll c.left [⟨⟨9, "X"⟩, Term.const zC⟩, ⟨⟨8, "Y"⟩, sz⟩] =
          Substitution.applyAll c.right [⟨⟨9, "X"⟩, Term.const zC⟩, ⟨⟨8, "Y"⟩, sz⟩] :=
  ⟨by decide,
   C3_unify_makes_sides_identical 9 _ _ (by decide) (by decide)⟩

/-- C10: the identity-equality test at the head of unify has already removed
identity-equal pairs before the constant case is reached, so the sub-branch of
the constant case that would return an empty binding list is unreachable and
the constant case always returns failure: unify is equal, at every fuel and on
every constraint list, to the variant whose constant case fails outright. -/
theorem C10_constant_case_always_fails :
    ∀ (fuel : Nat) (cs : List Constraint),
      Constraint.unify fuel cs = Constraint.unifyConstFails fuel cs := by
  intro fuel
  induction fuel with
  | zero => intro cs; cases cs <;> rfl
  | succ fuel ih =>
    intro cs
    cases cs with
    | nil => rfl
    | cons c0 rest =>
      obtain ⟨l, r⟩ := c0
      by_cases heq : l = r
      · simp only [Constraint.unify, Constraint.unifyConstFails, if_pos heq]
        exact ih rest
      · cases l with
        | var v =>
          simp only [Constraint.unify, Constraint.unifyConstFails, if_neg heq,
            ih (applyConstraints ⟨v, r⟩ rest)]
        | const a =>
          cases r with
          | var v =>
            simp only [Constraint.unify, Constraint.unifyConstFails, if_neg heq,
              ih (applyConstraints ⟨v, Term.const a⟩ rest)]
          | const b =>
            simp only [Constraint.unify, Constraint.unifyConstFails, if_neg heq,
              if_neg (show ¬Term.const a = Term.const b from heq)]
          | app g us =>
            simp only [Constraint.unify, Constraint.unifyConstFails, if_neg heq,
              if_neg (show ¬Term.const a = Term.app g us from heq)]
        | app f ts =>
          cases r with
          | var v =>
            simp only [Constraint.unify, Constraint.unifyConstFails, if_neg heq,
              ih (applyConstraints ⟨v, Term.app f ts⟩ rest)]
          | const b =>
            simp only [Constraint.unify, Constraint.unifyConstFails, if_neg heq,
              if_neg (show ¬Term.app f ts = Term.const b from heq)]
          | app g us =>
            simp only [Constraint.unify, Constraint.unifyConstFails, if_neg heq]
            by_cases hfg : f ≠ g
            · rw [if_pos hfg, if_pos hfg]
            · rw [if_neg hfg, if_neg hfg]
              by_cases hlen : ts.length ≠ us.length
              · rw [if_pos hlen, if_pos hlen]
              · rw [if_neg hlen, if_neg hlen]
                exact ih _

/-- One-step unfolding of nextF on an empty queue. -/
theorem nextF_queue_nil_eq (sp : Space) (ufuel fuel : Nat) (fv : List Variable) (c : Nat) :
    nextF sp ufuel fuel ⟨[], fv, c⟩ = some (none, ⟨[], fv, c⟩) := by
  cases fuel <;> rfl

/-- One-step unfolding of nextF on a nonempty queue with zero fuel. -/
theorem nextF_zero_cons_eq (sp : Space) (ufuel : Nat) (item : Item) (rest : List Item)
    (fv : List Variable) (c : Nat) :
    nextF sp ufuel 0 ⟨item :: rest, fv, c⟩ = none := rfl

/-- One-step unfolding of nextF on a dequeued candidate (empty goal list):
emit the query-variable mapping when it is fully ground, otherwise discard
the item and continue with the rest of the queue. -/
theorem nextF_candidate_eq (sp : Space) (ufuel fuel : Nat) (subs : List Substitution)
    (rest : List Item) (fv : List Variable) (c : Nat) :
    nextF sp ufuel (fuel + 1) ⟨⟨[], subs⟩ :: rest, fv, c⟩ =
      (if (fv.map (fun v => (v, Substitution.applyAll (Term.var v) subs))).all
          (fun p => (listVariables p.2).isEmpty) then
        some (some (fv.map (fun v => (v, Substitution.applyAll (Term.var v) subs))),
          ⟨rest, fv, c⟩)
      else
        nextF sp ufuel fuel ⟨rest, fv, c⟩) := rfl

/-- One-step unfolding of nextF on a dequeued item with a first goal left:
run the fact loop, then the rule loop, then continue the dequeue loop. -/
theorem nextF_expand_eq (sp : Space) (ufuel fuel : Nat) (g : Goal) (gs : List Goal)
    (subs : List Substitution) (rest : List Item) (fv : List Variable) (c : Nat) :
    nextF sp ufuel (fuel + 1) ⟨⟨g :: gs, subs⟩ :: rest, fv, c⟩ =
      (match pushFacts ufuel g gs subs sp.facts rest c with
       | none => none
       | some (q1, c1) =>
         match pushRules ufuel g gs subs sp.rules q1 c1 with
         | none => none
         | some (q2, c2) => nextF sp ufuel fuel ⟨q2, fv, c2⟩) := rfl

/-- A pull on a state with an empty queue reports exhaustion at once and
leaves the state unchanged. -/
theorem nextF_of_queue_nil {sp : Space} {ufuel fuel : Nat} {st : QueryState}
    (h : st.queue = []) : nextF sp ufuel fuel st = some (none, st) := by
  obtain ⟨q, fv, c⟩ := st
  have h' : q = [] := h
  subst h'
  exact nextF_queue_nil_eq sp ufuel fuel fv c

/-- Exhaustion is only ever reported together with a state whose queue is
empty. -/
theorem nextF_done_queue_nil {sp : Space} {ufuel : Nat} :
    ∀ (fuel : Nat) (st st' : QueryState),
      nextF sp ufuel fuel st = some (none, st') → st'.queue = [] := by
  intro fuel
  induction fuel with
  | zero =>
    intro st st' h
    obtain ⟨q, fv, c⟩ := st
    cases q with
    | nil =>
      rw [nextF_queue_nil_eq] at h
      simp only [Option.some.injEq, Prod.mk.injEq, true_and] at h
      subst h
      rfl
    | cons item rest =>
      rw [nextF_zero_cons_eq] at h
      simp at h
  | succ fuel ih =>
    intro st st' h
    obtain ⟨q, fv, c⟩ := st
    cases q with
    | nil =>
      rw [nextF_queue_nil_eq] at h
      simp only [Option.some.injEq, Prod.mk.injEq, true_and] at h
      subst h
      rfl
    | cons item rest =>
      obtain ⟨goals, subs⟩ := item
      cases goals with
      | nil =>
        rw [nextF_candidate_eq] at h
        split at h
        · simp at h
        · exact ih _ _ h
      | cons g gs =>
        rw [nextF_expand_eq] at h
        rcases hpf : pushFacts ufuel g gs subs sp.facts rest c with _ | ⟨q1, c1⟩ <;>
          rw [hpf] at h
        · simp at h
        dsimp only at h
        rcases hpr : pushRules ufuel g gs subs sp.rules q1 c1 with _ | ⟨q2, c2⟩ <;>
          rw [hpr] at h
        · simp at h
        dsimp only at h
        exact ih _ _ h

/-- C8: a query whose goal names a predicate matching no fact and no rule in
the store reports exhaustion on the very first pull (no error value exists in
the model: the only outcomes are an answer, exhaustion, or running out of
fuel, and here exhaustion is reached within fuel 2); and exhaustion is a
stable terminal state: a pull that reported exhaustion leaves a state on
which every subsequent pull, with any fuel, reports exhaustion again with
the state unchanged. -/
theorem C8_absent_predicate_exhausts_and_exhaustion_stable :
    nextF addSpace 32 2 (Space.query [⟨⟨1, "q"⟩, [Term.var ⟨9, "X"⟩]⟩] 10) =
        some (none, ⟨[], [⟨9, "X"⟩], 14⟩) ∧
      ∀ (sp : Space) (ufuel fuel : Nat) (st st' : QueryState),
        nextF sp ufuel fuel st = some (none, st') →
        ∀ fuel' : Nat, nextF sp ufuel fuel' st' = some (none, st') := by
  constructor
  · decide
  · intro sp ufuel fuel st st' h fuel'
    exact nextF_of_queue_nil (nextF_done_queue_nil fuel st st' h)

/-- Witness for C8: the stability part applied to the concrete exhausted pull
of the absent-predicate query. -/
theorem C8_absent_predicate_exhausts_and_exhaustion_stable_witness :
    nextF addSpace 32 7 (⟨[], [⟨9, "X"⟩], 14⟩ : QueryState) =
      some (none, ⟨[], [⟨9, "X"⟩], 14⟩) :=
  C8_absent_predicate_exhausts_and_exhaustion_stable.2 addSpace 32 2
    (Space.query [⟨⟨1, "q"⟩, [Term.var ⟨9, "X"⟩]⟩] 10) ⟨[], [⟨9, "X"⟩], 14⟩
    (by decide) 7

/-- Every answer a pull emits maps exactly the stored query-variable list, in
order, and maps every query variable to a fully ground term, and the pull
leaves the query-variable list unchanged. -/
theorem nextF_answer_props {sp : Space} {ufuel : Nat} :
    ∀ (fuel : Nat) (st : QueryState) (ans : Answer) (st' : QueryState),
      nextF sp ufuel fuel st = some (some ans, st') →
      ans.map Prod.fst = st.freeVariables ∧ (∀ p ∈ ans, listVariables p.2 = []) ∧
        st'.freeVariables = st.freeVariables := by
  intro fuel
  induction fuel with
  | zero =>
    intro st ans st' h
    obtain ⟨q, fv, c⟩ := st
    cases q with
    | nil =>
      rw [nextF_queue_nil_eq] at h
      simp at h
    | cons item rest =>
      rw [nextF_zero_cons_eq] at h
      simp at h
  | succ fuel ih =>
    intro st ans st' h
    obtain ⟨q, fv, c⟩ := st
    cases q with
    | nil =>
      rw [nextF_queue_nil_eq] at h
      simp at h
    | cons item rest =>
      obtain ⟨goals, subs⟩ := item
      cases goals with
      | nil =>
        rw [nextF_candidate_eq] at h
        split at h
        · next hall =>
          simp only [Option.some.injEq, Prod.mk.injEq] at h
          obtain ⟨h1, h2⟩ := h
          subst h1
          subst h2
          refine ⟨by simp [Function.comp_def], ?_, rfl⟩
          intro p hp
          have := List.all_eq_true.1 hall p hp
          simpa [List.isEmpty_iff] using this
        · exact ih ⟨rest, fv, c⟩ ans st' h
      | cons g gs =>
        rw [nextF_expand_eq] at h
        rcases hpf : pushFacts ufuel g gs subs sp.facts rest c with _ | ⟨q1, c1⟩ <;>
          rw [hpf] at h
        · simp at h
        dsimp only at h
        rcases hpr : pushRules ufuel g gs subs sp.rules q1 c1 with _ | ⟨q2, c2⟩ <;>
          rw [hpr] at h
        · simp at h
        dsimp only at h
        exact ih ⟨q2, fv, c2⟩ ans st' h

/-- A dequeued candidate whose bindings leave some query variable non-ground
is discarded silently: the pull proceeds as the same pull on the rest of the
queue. -/
theorem nextF_discards_nonground {sp : Space} {ufuel fuel : Nat}
    {subs : List Substitution} {rest : List Item} {fv : List Variable} {c : Nat}
    (hv : ∃ v ∈ fv, listVariables (Substitution.applyAll (Term.var v) subs) ≠ []) :
    nextF sp ufuel (fuel + 1) ⟨⟨[], subs⟩ :: rest, fv, c⟩ =
      nextF sp ufuel fuel ⟨rest, fv, c⟩ := by
  rw [nextF_candidate_eq]
  rw [if_neg]
  intro hall
  obtain ⟨v, hvmem, hne⟩ := hv
  have := List.all_eq_true.1 hall (v, Substitution.applyAll (Term.var v) subs)
    (List.mem_map_of_mem _ hvmem)
  rw [List.isEmpty_iff] at this
  exact hne this

/-- C5: every answer emitted by a query maps exactly the set of query
variables (collected from the original top-level goal list at query start and
preserved by every pull), each to a fully ground term; and a dequeued state
whose goal list is empty but whose bindings leave some query variable
non-ground is never emitted: it is discarded and the search continues with
the next queue item. -/
theorem C5_answers_ground_and_complete :
    (∀ (goals : List Goal) (c : Nat),
        (Space.query goals c).freeVariables = collectGoalVars goals)
    ∧ (∀ (sp : Space) (ufuel fuel : Nat) (st : QueryState) (ans : Answer)
        (st' : QueryState), nextF sp ufuel fuel st = some (some ans, st') →
          ans.map Prod.fst = st.freeVariables ∧
            (∀ p ∈ ans, listVariables p.2 = []) ∧
            st'.freeVariables = st.freeVariables)
    ∧ (∀ (sp : Space) (ufuel fuel : Nat) (subs : List Substitution)
        (rest : List Item) (fv : List Variable) (c : Nat),
        (∃ v ∈ fv, listVariables (Substitution.applyAll (Term.var v) subs) ≠ []) →
          nextF sp ufuel (fuel + 1) ⟨⟨[], subs⟩ :: rest, fv, c⟩ =
            nextF sp ufuel fuel ⟨rest, fv, c⟩) :=
  ⟨fun _ _ => rfl,
   fun _ _ fuel st ans st' h => nextF_answer_props fuel st ans st' h,
   fun _ _ _ _ _ _ _ hv => nextF_discards_nonground hv⟩

/-- Witness for C5: the answer part at the first pull of the concrete query
add(s(z), s(s(z)), V), and the discard part at a concrete non-ground
candidate. -/
theorem C5_answers_ground_and_complete_witness :
    ([(vVQ, sssz)].map Prod.fst = (Space.query goalsC2 10).freeVariables ∧
        (∀ p ∈ [(vVQ, sssz)], listVariables p.2 = []) ∧
        (⟨[], [vVQ], 18⟩ : QueryState).freeVariables =
          (Space.query goalsC2 10).freeVariables) ∧
      nextF addSpace 32 1 ⟨⟨[], [⟨⟨9, "X"⟩, Term.var ⟨8, "W"⟩⟩]⟩ :: [], [⟨9, "X"⟩], 3⟩ =
        nextF addSpace 32 0 ⟨[], [⟨9, "X"⟩], 3⟩ :=
  ⟨C5_answers_ground_and_complete.2.1 addSpace 32 8 (Space.query goalsC2 10)
      [(vVQ, sssz)] ⟨[], [vVQ], 18⟩ (by decide),
   C5_answers_ground_and_complete.2.2 addSpace 32 0
      [⟨⟨9, "X"⟩, Term.var ⟨8, "W"⟩⟩] [] [⟨9, "X"⟩] 3 (by decide)⟩

/-- A successor produced by a matching fact carries exactly the deferred
goals of the expanded item. -/
theorem tryFact_goals {ufuel : Nat} {g : Goal} {gs : List Goal}
    {subs : List Substitution} {c : Nat} {f : Fact} {it : Item} {c' : Nat}
    (h : tryFact ufuel g gs subs c f = (some (some it), c')) : it.goals = gs := by
  simp only [tryFact] at h
  split at h
  · simp at h
  split at h
  · simp at h
  split at h
  · simp at h
  · simp at h
  · simp only [Prod.mk.injEq, Option.some.injEq] at h
    obtain ⟨h1, -⟩ := h
    rw [← h1]

/-- A successor produced by a matching rule carries the deferred goals of the
expanded item followed by the body atoms of the standardized-apart rule. -/
theorem tryRule_goals {ufuel : Nat} {g : Goal} {gs : List Goal}
    {subs : List Substitution} {c : Nat} {r : Rule} {it : Item} {c' : Nat}
    (h : tryRule ufuel g gs subs c r = (some (some it), c')) :
    it.goals = gs ++ (r.clone c).1.right.map (fun a => Goal.mk a.predicate a.terms) := by
  simp only [tryRule] at h
  split at h
  · simp at h
  split at h
  · simp at h
  split at h
  · simp at h
  · simp at h
  · simp only [Prod.mk.injEq, Option.some.injEq] at h
    obtain ⟨h1, -⟩ := h
    rw [← h1]

/-- The fact loop only appends to the queue it is given: running it from an
arbitrary initial queue equals running it from the empty queue and appending
the produced items after the initial queue. -/
theorem pushFacts_append {ufuel : Nat} {g : Goal} {gs : List Goal}
    {subs : List Substitution} :
    ∀ (fs : List Fact) (q : List Item) (c : Nat),
      pushFacts ufuel g gs subs fs q c =
        Option.map (fun p => (q ++ p.1, p.2)) (pushFacts ufuel g gs subs fs [] c) := by
  intro fs
  induction fs with
  | nil => intro q c; simp [pushFacts]
  | cons f fs ih =>
    intro q c
    rcases htf : tryFact ufuel g gs subs c f with ⟨_ | _ | it, c'⟩
    · simp [pushFacts, htf]
    · simp only [pushFacts, htf]
      exact ih q c'
    · simp only [pushFacts, htf, List.nil_append]
      rw [ih (q ++ [it]) c', ih [it] c']
      rcases hr : pushFacts ufuel g gs subs fs [] c' with _ | ⟨its, c''⟩ <;>
        simp [hr, List.append_assoc]

/-- The rule loop only appends to the queue it is given. -/
theorem pushRules_append {ufuel : Nat} {g : Goal} {gs : List Goal}
    {subs : List Substitution} :
    ∀ (rs : List Rule) (q : List Item) (c : Nat),
      pushRules ufuel g gs subs rs q c =
        Option.map (fun p => (q ++ p.1, p.2)) (pushRules ufuel g gs subs rs [] c) := by
  intro rs
  induction rs with
  | nil => intro q c; simp [pushRules]
  | cons r rs ih =>
    intro q c
    rcases htr : tryRule ufuel g gs subs c r with ⟨_ | _ | it, c'⟩
    · simp [pushRules, htr]
    · simp only [pushRules, htr]
      exact ih q c'
    · simp only [pushRules, htr, List.nil_append]
      rw [ih (q ++ [it]) c', ih [it] c']
      rcases hr : pushRules ufuel g gs subs rs [] c' with _ | ⟨its, c''⟩ <;>
        simp [hr, List.append_assoc]

/-- Every item the fact loop adds to the queue carries exactly the deferred
goals of the expanded item. -/
theorem pushFacts_items {ufuel : Nat} {g : Goal} {gs : List Goal}
    {subs : List Substitution} :
    ∀ (fs : List Fact) (q : List Item) (c : Nat) (q' : List Item) (c' : Nat),
      pushFacts ufuel g gs subs fs q c = some (q', c') →
      ∀ it ∈ q', it ∈ q ∨ it.goals = gs := by
  intro fs
  induction fs with
  | nil =>
    intro q c q' c' h it hit
    simp only [pushFacts, Option.some.injEq, Prod.mk.injEq] at h
    obtain ⟨h1, -⟩ := h
    exact Or.inl (h1 ▸ hit)
  | cons f fs ih =>
    intro q c q' c' h it hit
    rcases htf : tryFact ufuel g gs subs c f with ⟨_ | _ | it0, c0⟩ <;>
      simp only [pushFacts, htf] at h
    · exact absurd h (by simp)
    · exact ih q c0 q' c' h it hit
    · rcases ih (q ++ [it0]) c0 q' c' h it hit with hmem | hg
      · rcases List.mem_append.1 hmem with hq | h1
        · exact Or.inl hq
        · rw [List.mem_singleton] at h1
          subst h1
          exact Or.inr (tryFact_goals htf)
      · exact Or.inr hg

/-- Every item the rule loop adds to the queue carries the deferred goals of
the expanded item followed by the standardized-apart body of some store
rule. -/
theorem pushRules_items {ufuel : Nat} {g : Goal} {gs : List Goal}
    {subs : List Substitution} :
    ∀ (rs : List Rule) (q : List Item) (c : Nat) (q' : List Item) (c' : Nat),
      pushRules ufuel g gs subs rs q c = some (q', c') →
      ∀ it ∈ q', it ∈ q ∨ ∃ r ∈ rs, ∃ c0 : Nat,
        it.goals = gs ++ (r.clone c0).1.right.map (fun a => Goal.mk a.predicate a.terms) := by
  intro rs
  induction rs with
  | nil =>
    intro q c q' c' h it hit
    simp only [pushRules, Option.some.injEq, Prod.mk.injEq] at h
    obtain ⟨h1, -⟩ := h
    exact Or.inl (h1 ▸ hit)
  | cons r rs ih =>
    intro q c q' c' h it hit
    rcases htr : tryRule ufuel g gs subs c r with ⟨_ | _ | it0, c0⟩ <;>
      simp only [pushRules, htr] at h
    · exact absurd h (by simp)
    · rcases ih q c0 q' c' h it hit with hmem | ⟨r1, hr1, c1, hg⟩
      · exact Or.inl hmem
      · exact Or.inr ⟨r1, List.mem_cons_of_mem _ hr1, c1, hg⟩
    · rcases ih (q ++ [it0]) c0 q' c' h it hit with hmem | ⟨r1, hr1, c1, hg⟩
      · rcases List.mem_append.1 hmem with hq | h1
        · exact Or.inl hq
        · rw [List.mem_singleton] at h1
          subst h1
          exact Or.inr ⟨r, List.mem_cons_self r rs, c, tryRule_goals htr⟩
      · exact Or.inr ⟨r1, List.mem_cons_of_mem _ hr1, c1, hg⟩

/-- C6: when a dequeued state with a nonempty goal list is expanded on its
first goal, the successor items are enqueued at the back of the queue,
first one per matching fact in store order and only afterwards one per
matching rule in store order; every fact successor keeps exactly the deferred
goals, and every rule successor has goal list equal to the deferred goals
with the standardized-apart rule body appended after them, not prepended. -/
theorem C6_facts_before_rules_and_body_appended :
    ∀ (sp : Space) (ufuel fuel : Nat) (st : QueryState) (item : Item)
      (rest : List Item) (g : Goal) (gs : List Goal) (q1 : List Item) (c1 : Nat)
      (q2 : List Item) (c2 : Nat),
      st.queue = item :: rest →
      item.goals = g :: gs →
      pushFacts ufuel g gs item.substitutions sp.facts rest st.counter = some (q1, c1) →
      pushRules ufuel g gs item.substitutions sp.rules q1 c1 = some (q2, c2) →
      ∃ fits rits : List Item,
        pushFacts ufuel g gs item.substitutions sp.facts [] st.counter = some (fits, c1) ∧
        pushRules ufuel g gs item.substitutions sp.rules [] c1 = some (rits, c2) ∧
        q2 = (rest ++ fits) ++ rits ∧
        nextF sp ufuel (fuel + 1) st = nextF sp ufuel fuel ⟨q2, st.freeVariables, c2⟩ ∧
        (∀ it ∈ fits, it.goals = gs) ∧
        (∀ it ∈ rits, ∃ r ∈ sp.rules, ∃ c0 : Nat,
          it.goals = gs ++ (r.clone c0).1.right.map fun a => Goal.mk a.predicate a.terms) := by
  intro sp ufuel fuel st item rest g gs q1 c1 q2 c2 hq hg hpf hpr
  have hpf' := @pushFacts_append ufuel g gs item.substitutions sp.facts rest st.counter
  rw [hpf] at hpf'
  rcases hX : pushFacts ufuel g gs item.substitutions sp.facts [] st.counter
    with _ | ⟨fits, c1'⟩ <;> rw [hX] at hpf'
  · simp at hpf'
  simp only [Option.map_some', Option.some.injEq, Prod.mk.injEq] at hpf'
  obtain ⟨hq1, hc1⟩ := hpf'
  subst hc1
  subst hq1
  have hpr' := @pushRules_append ufuel g gs item.substitutions sp.rules (rest ++ fits) c1
  rw [hpr] at hpr'
  rcases hY : pushRules ufuel g gs item.substitutions sp.rules [] c1
    with _ | ⟨rits, c2'⟩ <;> rw [hY] at hpr'
  · simp at hpr'
  simp only [Option.map_some', Option.some.injEq, Prod.mk.injEq] at hpr'
  obtain ⟨hq2, hc2⟩ := hpr'
  subst hc2
  subst hq2
  refine ⟨fits, rits, rfl, rfl, by rw [List.append_assoc], ?_, ?_, ?_⟩
  · obtain ⟨qq, fv, cc⟩ := st
    have hq' : qq = item :: rest := hq
    subst hq'
    obtain ⟨goals, subs⟩ := item
    have hg' : goals = g :: gs := hg
    subst hg'
    rw [nextF_expand_eq]
    rw [show pushFacts ufuel g gs subs sp.facts rest cc = some (rest ++ fits, c1) from hpf]
    dsimp only
    rw [show pushRules ufuel g gs subs sp.rules (rest ++ fits) c1 =
      some (rest ++ fits ++ rits, c2) from hpr]
  · intro it hit
    rcases pushFacts_items sp.facts [] st.counter fits c1 hX it hit with hmem | hgoals
    · exact absurd hmem (List.not_mem_nil it)
    · exact hgoals
  · intro it hit
    rcases pushRules_items sp.rules [] c1 rits c2 hY it hit with hmem | hbody
    · exact absurd hmem (List.not_mem_nil it)
    · exact hbody

/-- Witness for C6: the expansion of the initial item of the concrete query
add(X, Y, s(s(z))): one fact successor (counter 10 to 11), then one rule
successor (counter 11 to 14), body appended after the (empty) deferred
goals. -/
theorem C6_facts_before_rules_and_body_appended_witness :
    ∃ fits rits : List Item,
      pushFacts 32 ⟨addP, [Term.var vXQ, Term.var vYQ, ssz]⟩ [] [] addSpace.facts [] 10 =
        some (fits, 11) ∧
      pushRules 32 ⟨addP, [Term.var vXQ, Term.var vYQ, ssz]⟩ [] [] addSpace.rules [] 11 =
        some (rits, 14) ∧
      ([⟨[], [⟨vXQ, Term.const zC⟩, ⟨vYQ, Term.var ⟨10, "Y"⟩⟩, ⟨⟨10, "Y"⟩, ssz⟩]⟩,
        ⟨[⟨addP, [Term.var ⟨11, "X"⟩, Term.var ⟨12, "Y"⟩, Term.var ⟨13, "Z"⟩]⟩],
         [⟨vXQ, Term.app sF [Term.var ⟨11, "X"⟩]⟩, ⟨vYQ, Term.var ⟨12, "Y"⟩⟩,
          ⟨⟨13, "Z"⟩, sz⟩]⟩] : List Item) = ([] ++ fits) ++ rits ∧
      nextF addSpace 32 (0 + 1) (Space.query goalsC1 10) =
        nextF addSpace 32 0
          ⟨[⟨[], [⟨vXQ, Term.const zC⟩, ⟨vYQ, Term.var ⟨10, "Y"⟩⟩, ⟨⟨10, "Y"⟩, ssz⟩]⟩,
            ⟨[⟨addP, [Term.var ⟨11, "X"⟩, Term.var ⟨12, "Y"⟩, Term.var ⟨13, "Z"⟩]⟩],
             [⟨vXQ, Term.app sF [Term.var ⟨11, "X"⟩]⟩, ⟨vYQ, Term.var ⟨12, "Y"⟩⟩,
              ⟨⟨13, "Z"⟩, sz⟩]⟩], (Space.query goalsC1 10).freeVariables, 14⟩ ∧
      (∀ it ∈ fits, it.goals = ([] : List Goal)) ∧
      (∀ it ∈ rits, ∃ r ∈ addSpace.rules, ∃ c0 : Nat,
        it.goals = [] ++ (r.clone c0).1.right.map fun a => Goal.mk a.predicate a.terms) :=
  C6_facts_before_rules_and_body_appended addSpace 32 0 (Space.query goalsC1 10)
    ⟨goalsC1, []⟩ [] ⟨addP, [Term.var vXQ, Term.var vYQ, ssz]⟩ []
    [⟨[], [⟨vXQ, Term.const zC⟩, ⟨vYQ, Term.var ⟨10, "Y"⟩⟩, ⟨⟨10, "Y"⟩, ssz⟩]⟩] 11
    [⟨[], [⟨vXQ, Term.const zC⟩, ⟨vYQ, Term.var ⟨10, "Y"⟩⟩, ⟨⟨10, "Y"⟩, ssz⟩]⟩,
     ⟨[⟨addP, [Term.var ⟨11, "X"⟩, Term.var ⟨12, "Y"⟩, Term.var ⟨13, "Z"⟩]⟩],
      [⟨vXQ, Term.app sF [Term.var ⟨11, "X"⟩]⟩, ⟨vYQ, Term.var ⟨12, "Y"⟩⟩,
       ⟨⟨13, "Z"⟩, sz⟩]⟩] 14
    (by decide) (by decide) (by decide) (by decide)

/-! Lemmas about standardizing apart (clone) seen as a variable renaming. -/

theorem renameTermList_eq_map (ρ : Variable → Variable) (ts : List Term) :
    renameTermList ρ ts = ts.map (renameTerm ρ) := by
  induction ts with
  | nil => rfl
  | cons t ts ih => simp [renameTermList, ih]

theorem applyAll_const (k : Constant) (ss : List Substitution) :
    Substitution.applyAll (Term.const k) ss = Term.const k := by
  induction ss with
  | nil => rfl
  | cons s ss ih => rw [applyAll_cons]; exact ih

/-- The minted substitution list leaves a variable outside the collected
list untouched. -/
theorem applyAll_mintSubs_not_mem {v : Variable} :
    ∀ (vs : List Variable) (c : Nat), v ∉ vs →
      Substitution.applyAll (Term.var v) (mintSubs vs c) = Term.var v := by
  intro vs
  induction vs with
  | nil => intro c _; rfl
  | cons w ws ih =>
    intro c hv
    rw [show mintSubs (w :: ws) c = ⟨w, .var ⟨c, w.name⟩⟩ :: mintSubs ws (c + 1) from rfl,
      applyAll_cons]
    rw [show Substitution.apply ⟨w, .var ⟨c, w.name⟩⟩ (Term.var v) = Term.var v by
      simp only [Substitution.apply]
      rw [if_neg]
      intro hvw
      exact hv (hvw ▸ List.mem_cons_self w ws)]
    exact ih (c + 1) (fun hmem => hv (List.mem_cons_of_mem _ hmem))

/-- On a variable, the minted substitution list acts exactly as the renaming
of the specification, provided every collected variable has identity below
the counter. -/
theorem applyAll_mintSubs_var {v : Variable} :
    ∀ (vs : List Variable) (c : Nat), (∀ w ∈ vs, w.id < c) →
      Substitution.applyAll (Term.var v) (mintSubs vs c) =
        Term.var (renameVia vs c v) := by
  intro vs
  induction vs with
  | nil => intro c _; rfl
  | cons w ws ih =>
    intro c hlt
    rw [show mintSubs (w :: ws) c = ⟨w, .var ⟨c, w.name⟩⟩ :: mintSubs ws (c + 1) from rfl,
      applyAll_cons]
    by_cases hvw : w = v
    · rw [show Substitution.apply ⟨w, .var ⟨c, w.name⟩⟩ (Term.var v) = Term.var ⟨c, w.name⟩ by
        simp [Substitution.apply, hvw.symm]]
      rw [applyAll_mintSubs_not_mem ws (c + 1) (fun hmem =>
        absurd (hlt _ (List.mem_cons_of_mem _ hmem)) (by simp))]
      rw [show renameVia (w :: ws) c v = ⟨c, v.name⟩ by simp [renameVia, hvw]]
      rw [hvw]
    · rw [show Substitution.apply ⟨w, .var ⟨c, w.name⟩⟩ (Term.var v) = Term.var v by
        simp only [Substitution.apply]
        rw [if_neg (fun hvw' => hvw hvw'.symm)]]
      rw [ih (c + 1) (fun x hx => Nat.lt_succ_of_lt (hlt x (List.mem_cons_of_mem _ hx)))]
      rw [show renameVia (w :: ws) c v = renameVia ws (c + 1) v by simp [renameVia, hvw]]

/-- On any term, the minted substitution list acts exactly as the renaming of
the specification. -/
theorem applyAll_mintSubs_term {vs : List Variable} {c : Nat}
    (hlt : ∀ w ∈ vs, w.id < c) :
    ∀ t : Term, Substitution.applyAll t (mintSubs vs c) =
      renameTerm (renameVia vs c) t
  | .var v => applyAll_mintSubs_var vs c hlt
  | .const k => by
    rw [applyAll_const]
    rfl
  | .app f ts => by
    rw [applyAll_app, show renameTerm (renameVia vs c) (Term.app f ts) =
      Term.app f (renameTermList (renameVia vs c) ts) from rfl, renameTermList_eq_map]
    congr 1
    apply List.map_congr_left
    intro t ht
    have _ : sizeOf t < sizeOf (Term.app f ts) := by
      have := List.sizeOf_lt_of_mem ht
      simp only [Term.app.sizeOf_spec]
      omega
    exact applyAll_mintSubs_term hlt t
  termination_by t => sizeOf t
  decreasing_by
    simp_wf
    have := List.sizeOf_lt_of_mem ht
    omega

/-- The renaming preserves display names. -/
theorem renameVia_name : ∀ (vs : List Variable) (c : Nat) (v : Variable),
    (renameVia vs c v).name = v.name := by
  intro vs
  induction vs with
  | nil => intro c v; rfl
  | cons w ws ih =>
    intro c v
    by_cases hvw : w = v
    · simp [renameVia, hvw]
    · simp only [renameVia, if_neg hvw]
      exact ih (c + 1) v

/-- The renaming of a collected variable has identity at least the counter. -/
theorem renameVia_id_ge : ∀ (vs : List Variable) (c : Nat) (v : Variable),
    v ∈ vs → c ≤ (renameVia vs c v).id := by
  intro vs
  induction vs with
  | nil => intro c v hv; exact absurd hv (List.not_mem_nil v)
  | cons w ws ih =>
    intro c v hv
    by_cases hvw : w = v
    · simp [renameVia, hvw]
    · simp only [renameVia, if_neg hvw]
      have hv' : v ∈ ws := by
        rcases List.mem_cons.1 hv with rfl | h
        · exact absurd rfl hvw
        · exact h
      exact Nat.le_of_succ_le (ih (c + 1) v hv')

/-- The renaming is injective on the collected variables: distinct originals
receive distinct fresh variables. -/
theorem renameVia_inj : ∀ (vs : List Variable) (c : Nat) (v w : Variable),
    v ∈ vs → w ∈ vs → renameVia vs c v = renameVia vs c w → v = w := by
  intro vs
  induction vs with
  | nil => intro c v w hv _ _; exact absurd hv (List.not_mem_nil v)
  | cons w0 ws ih =>
    intro c v w hv hw heq
    by_cases hv0 : w0 = v <;> by_cases hw0 : w0 = w
    · rw [← hv0, ← hw0]
    · have hw' : w ∈ ws := by
        rcases List.mem_cons.1 hw with rfl | h
        · exact absurd rfl hw0
        · exact h
      rw [show renameVia (w0 :: ws) c v = ⟨c, v.name⟩ by simp [renameVia, hv0]] at heq
      rw [show renameVia (w0 :: ws) c w = renameVia ws (c + 1) w by
        simp [renameVia, hw0]] at heq
      have := renameVia_id_ge ws (c + 1) w hw'
      rw [← heq] at this
      exact absurd this (by simp)
    · have hv' : v ∈ ws := by
        rcases List.mem_cons.1 hv with rfl | h
        · exact absurd rfl hv0
        · exact h
      rw [show renameVia (w0 :: ws) c w = ⟨c, w.name⟩ by simp [renameVia, hw0]] at heq
      rw [show renameVia (w0 :: ws) c v = renameVia ws (c + 1) v by
        simp [renameVia, hv0]] at heq
      have := renameVia_id_ge ws (c + 1) v hv'
      rw [heq] at this
      exact absurd this (by simp)
    · have hv' : v ∈ ws := by
        rcases List.mem_cons.1 hv with rfl | h
        · exact absurd rfl hv0
        · exact h
      have hw' : w ∈ ws := by
        rcases List.mem_cons.1 hw with rfl | h
        · exact absurd rfl hw0
        · exact h
      rw [show renameVia (w0 :: ws) c v = renameVia ws (c + 1) v by
        simp [renameVia, hv0]] at heq
      rw [show renameVia (w0 :: ws) c w = renameVia ws (c + 1) w by
        simp [renameVia, hw0]] at heq
      exact ih (c + 1) v w hv' hw' heq

/-- Every variable of a renamed term is the image of a variable of the
original term. -/
theorem mem_vars_renameTerm (ρ : Variable → Variable) :
    ∀ (t : Term) (x : Variable), x ∈ listVariables (renameTerm ρ t) →
      ∃ v ∈ listVariables t, x = ρ v
  | .var v, x, h => by
    rw [show renameTerm ρ (Term.var v) = Term.var (ρ v) from rfl] at h
    rcases List.mem_singleton.1 h with rfl
    exact ⟨v, by simp [listVariables], rfl⟩
  | .const k, x, h => by
    rw [show renameTerm ρ (Term.const k) = Term.const k from rfl] at h
    exact absurd h (by simp [listVariables])
  | .app f ts, x, h => by
    rw [show renameTerm ρ (Term.app f ts) = Term.app f (renameTermList ρ ts) from rfl,
      renameTermList_eq_map] at h
    obtain ⟨t', ht', hx⟩ := mem_listVariables_app.1 h
    obtain ⟨t0, ht0, rfl⟩ := List.mem_map.1 ht'
    have _ : sizeOf t0 < sizeOf (Term.app f ts) := by
      have := List.sizeOf_lt_of_mem ht0
      simp only [Term.app.sizeOf_spec]
      omega
    obtain ⟨v, hv, rfl⟩ := mem_vars_renameTerm ρ t0 x hx
    exact ⟨v, mem_listVariables_app.2 ⟨t0, ht0, hv⟩, rfl⟩
  termination_by t _ _ => sizeOf t

/-- Membership in the variable set collected over a list of atoms. -/
theorem mem_foldl_varsUnion {x : Variable} :
    ∀ (atoms : List Atom) (acc : List Variable),
      x ∈ atoms.foldl (fun acc a => varsUnionAux acc a.terms) acc ↔
        x ∈ acc ∨ ∃ a ∈ atoms, ∃ t ∈ a.terms, x ∈ listVariables t := by
  intro atoms
  induction atoms with
  | nil => intro acc; simp
  | cons a atoms ih =>
    intro acc
    rw [List.foldl_cons, ih, mem_varsUnionAux]
    simp only [List.mem_cons]
    constructor
    · rintro ((h | ⟨t, ht, hx⟩) | ⟨a', ha', t, ht, hx⟩)
      · exact Or.inl h
      · exact Or.inr ⟨a, Or.inl rfl, t, ht, hx⟩
      · exact Or.inr ⟨a', Or.inr ha', t, ht, hx⟩
    · rintro (h | ⟨a', (rfl | ha'), t, ht, hx⟩)
      · exact Or.inl (Or.inl h)
      · exact Or.inl (Or.inr ⟨t, ht, hx⟩)
      · exact Or.inr ⟨a', ha', t, ht, hx⟩

/-- Membership in the collected variable set of a fact. -/
theorem mem_factVars {x : Variable} {f : Fact} :
    x ∈ factVars f ↔ ∃ t ∈ f.terms, x ∈ listVariables t := by
  unfold factVars
  rw [mem_varsUnionAux]
  simp

/-- Membership in the collected variable set of a rule: head variables or
variables of some body atom. -/
theorem mem_ruleVars {x : Variable} {r : Rule} :
    x ∈ ruleVars r ↔ (∃ t ∈ r.left.terms, x ∈ listVariables t) ∨
      ∃ a ∈ r.right, ∃ t ∈ a.terms, x ∈ listVariables t := by
  unfold ruleVars
  rw [mem_foldl_varsUnion, mem_varsUnionAux]
  simp

/-- C7: standardizing apart (clone, on a Fact or on a Rule, given a counter
exceeding every variable identity of the clause) returns a clause that is the
input with every term mapped through one structure-preserving variable
renaming: predicates, functors and constants are unchanged, the renaming
preserves display names, maps distinct collected variables to distinct fresh
variables, and no variable of the result is a variable of the input clause. -/
theorem C7_clone_standardizes_apart :
    (∀ (f : Fact) (c : Nat), (∀ v ∈ factVars f, v.id < c) →
      (f.clone c).1.predicate = f.predicate ∧
      (f.clone c).1.terms = f.terms.map (renameTerm (renameVia (factVars f) c)) ∧
      (∀ v, (renameVia (factVars f) c v).name = v.name) ∧
      (∀ v ∈ factVars f, ∀ w ∈ factVars f,
        renameVia (factVars f) c v = renameVia (factVars f) c w → v = w) ∧
      (∀ x ∈ factVars (f.clone c).1, x ∉ factVars f))
    ∧ (∀ (r : Rule) (c : Nat), (∀ v ∈ ruleVars r, v.id < c) →
      (r.clone c).1.left.predicate = r.left.predicate ∧
      (r.clone c).1.left.terms =
        r.left.terms.map (renameTerm (renameVia (ruleVars r) c)) ∧
      (r.clone c).1.right = r.right.map (fun a =>
        Atom.mk a.predicate (a.terms.map (renameTerm (renameVia (ruleVars r) c)))) ∧
      (∀ v, (renameVia (ruleVars r) c v).name = v.name) ∧
      (∀ v ∈ ruleVars r, ∀ w ∈ ruleVars r,
        renameVia (ruleVars r) c v = renameVia (ruleVars r) c w → v = w) ∧
      (∀ x ∈ ruleVars (r.clone c).1, x ∉ ruleVars r)) := by
  constructor
  · intro f c hlt
    have hterms : (f.clone c).1.terms =
        f.terms.map (renameTerm (renameVia (factVars f) c)) := by
      show f.terms.map (fun t => Substitution.applyAll t (mintSubs (factVars f) c)) = _
      apply List.map_congr_left
      intro t _
      exact applyAll_mintSubs_term hlt t
    refine ⟨rfl, hterms, renameVia_name (factVars f) c,
      fun v hv w hw => renameVia_inj (factVars f) c v w hv hw, ?_⟩
    intro x hx hxorig
    obtain ⟨t', ht', hxv⟩ := mem_factVars.1 hx
    rw [hterms] at ht'
    obtain ⟨t0, ht0, rfl⟩ := List.mem_map.1 ht'
    obtain ⟨v, hv, rfl⟩ := mem_vars_renameTerm _ t0 x hxv
    have hvmem : v ∈ factVars f := mem_factVars.2 ⟨t0, ht0, hv⟩
    have hge := renameVia_id_ge (factVars f) c v hvmem
    have hlt' := hlt _ hxorig
    omega
  · intro r c hlt
    have hterm : ∀ t : Term, Substitution.applyAll t (mintSubs (ruleVars r) c) =
        renameTerm (renameVia (ruleVars r) c) t := applyAll_mintSubs_term hlt
    have hleft : (r.clone c).1.left.terms =
        r.left.terms.map (renameTerm (renameVia (ruleVars r) c)) := by
      show r.left.terms.map (fun t => Substitution.applyAll t (mintSubs (ruleVars r) c)) = _
      apply List.map_congr_left
      intro t _
      exact hterm t
    have hright : (r.clone c).1.right = r.right.map (fun a =>
        Atom.mk a.predicate (a.terms.map (renameTerm (renameVia (ruleVars r) c)))) := by
      show r.right.map (fun a => Atom.mk a.predicate
        (a.terms.map (fun t => Substitution.applyAll t (mintSubs (ruleVars r) c)))) = _
      apply List.map_congr_left
      intro a _
      congr 1
      apply List.map_congr_left
      intro t _
      exact hterm t
    refine ⟨rfl, hleft, hright, renameVia_name (ruleVars r) c,
      fun v hv w hw => renameVia_inj (ruleVars r) c v w hv hw, ?_⟩
    intro x hx hxorig
    have hlt' := hlt _ hxorig
    have hge : c ≤ x.id := by
      rcases mem_ruleVars.1 hx with ⟨t', ht', hxv⟩ | ⟨a', ha', t', ht', hxv⟩
      · rw [hleft] at ht'
        obtain ⟨t0, ht0, rfl⟩ := List.mem_map.1 ht'
        obtain ⟨v, hv, rfl⟩ := mem_vars_renameTerm _ t0 x hxv
        exact renameVia_id_ge (ruleVars r) c v
          (mem_ruleVars.2 (Or.inl ⟨t0, ht0, hv⟩))
      · rw [hright] at ha'
        obtain ⟨a0, ha0, rfl⟩ := List.mem_map.1 ha'
        obtain ⟨t0, ht0, rfl⟩ := List.mem_map.1 ht'
        obtain ⟨v, hv, rfl⟩ := mem_vars_renameTerm _ t0 x hxv
        exact renameVia_id_ge (ruleVars r) c v
          (mem_ruleVars.2 (Or.inr ⟨a0, ha0, t0, ht0, hv⟩))
    omega

/-- Witness for C7 at the concrete fact add(z,Y,Y) and rule
add(s(X),Y,s(Z)) :- add(X,Y,Z) with counter 10. -/
theorem C7_clone_standardizes_apart_witness :
    (addFact.clone 10).1.terms =
        addFact.terms.map (renameTerm (renameVia (factVars addFact) 10)) ∧
      (addRule.clone 10).1.right = addRule.right.map (fun a =>
        Atom.mk a.predicate (a.terms.map (renameTerm (renameVia (ruleVars addRule) 10)))) ∧
      ∀ x ∈ factVars (addFact.clone 10).1, x ∉ factVars addFact :=
  ⟨(C7_clone_standardizes_apart.1 addFact 10 (by decide)).2.1,
   (C7_clone_standardizes_apart.2 addRule 10 (by decide)).2.2.1,
   (C7_clone_standardizes_apart.1 addFact 10 (by decide)).2.2.2.2⟩

/-- C1: for the store consisting of the single fact add(z,Y,Y) and the single
rule add(s(X),Y,s(Z)) :- add(X,Y,Z), the query add(X,Y,s(s(z))) yields exactly
three answers, in this order: X to z and Y to s(s(z)); then X to s(z) and Y to
s(z); then X to s(s(z)) and Y to z; after which the next pull reports
exhaustion. -/
theorem C1_add_query_three_answers :
    pulls addSpace 32 32 4 (Space.query goalsC1 10) =
      some [some [(vXQ, Term.const zC), (vYQ, ssz)],
            some [(vXQ, sz), (vYQ, sz)],
            some [(vXQ, ssz), (vYQ, Term.const zC)],
            none] := by
  decide

/-- C2: for the same store, the query add(s(z), s(s(z)), V) yields exactly one
answer, mapping V to s(s(s(z))), and the following pull reports exhaustion. -/
theorem C2_add_query_single_answer :
    pulls addSpace 32 32 2 (Space.query goalsC2 10) =
      some [some [(vVQ, sssz)], none] := by
  decide

end Prolog
